import Mathlib

/-!
Verification of the rustfs metadata-listing core and its OS-stats helper.

The OS-stats helper (crates/utils/src/os/linux.rs) is embedded directly:
strings are modelled as lists of characters, filesystem reads as an
explicit environment record, and the pure parsing helpers are translated
function by function.  The listing core (walker, streaming transport,
multi-disk merge engine) is not present in the visible sources, so it is
modelled from the specification where noted.
-/

namespace Rustfs

/-- A Rust string slice, modelled as its list of characters. -/
abbrev Str := List Char

/-- Rust str.split_inclusive for the newline character: splits the text
into pieces, each piece keeping its terminating newline. -/
def splitInclusiveNL : Str → List Str
  | [] => []
  | '\n' :: rest => ['\n'] :: splitInclusiveNL rest
  | c :: rest =>
    match splitInclusiveNL rest with
    | [] => [[c]]
    | l :: ls => (c :: l) :: ls

/-- The per-line trimming done by Rust str.lines: a trailing newline is
removed, and a carriage return is removed only when a newline was. -/
def lineTrim (l : Str) : Str :=
  match l.getLast? with
  | some c =>
    if c = '\n' then
      let l2 := l.dropLast
      match l2.getLast? with
      | some c2 => if c2 = '\r' then l2.dropLast else l2
      | none => l2
    else l
  | none => l

/-- Rust str.lines: split at newlines, trimming line terminators; a final
line terminator is optional. -/
def rustLines (s : Str) : List Str :=
  (splitInclusiveNL s).map lineTrim

/-- Accumulator loop for str.split_whitespace. -/
def splitWsAux : Str → Str → List Str
  | [], acc => if acc = [] then [] else [acc.reverse]
  | c :: rest, acc =>
    if c.isWhitespace then
      if acc = [] then splitWsAux rest []
      else acc.reverse :: splitWsAux rest []
    else splitWsAux rest (c :: acc)

/-- Rust str.split_whitespace: the maximal whitespace-free words of the
string, in order, with no empty words. -/
def splitWhitespace (s : Str) : List Str :=
  splitWsAux s []

/-- Rust str.parse::<u64>(): an optional leading plus sign, then one or
more decimal digits, value below 2^64; anything else fails. -/
def parse_u64 (s : Str) : Option Nat :=
  let digits :=
    match s with
    | '+' :: rest => rest
    | _ => s
  if digits = [] then none
  else if digits.all Char.isDigit then
    let n := digits.foldl (fun acc c => acc * 10 + (c.toNat - 48)) 0
    if n < 2 ^ 64 then some n else none
  else none

/-! ## crates/utils/src/os/linux.rs — pure parsing helpers -/

/-- One step of resolve_device_name_from_content on a single line,
mirroring the source's sequence of fields.next()? and parse().ok()?:
the first two whitespace fields parsed as u64 and the third field. -/
def lineParsed (line : Str) : Option (Nat × Nat × Str) :=
  match splitWhitespace line with
  | f1 :: f2 :: f3 :: _ =>
    match parse_u64 f1, parse_u64 f2 with
    | some devMajor, some devMinor => some (devMajor, devMinor, f3)
    | _, _ => none
  | _ => none

/-- Whether a line is well formed and its first two fields equal the
requested major and minor numbers. -/
def lineMatches (major minor : Nat) (line : Str) : Bool :=
  match lineParsed line with
  | some (devMajor, devMinor, _) => decide (devMajor = major ∧ devMinor = minor)
  | none => false

/-- The loop of resolve_device_name_from_content over the lines of the
diskstats content.  Each line is read as first field (u64), second field
(u64), third field (name); any missing field or failed parse makes the
whole call return none, exactly as the question-mark operators do in the
source. -/
def resolve_device_name_from_lines : List Str → Nat → Nat → Option Str
  | [], _, _ => none
  | line :: rest, major, minor =>
    match splitWhitespace line with
    | [] => none
    | f1 :: fs1 =>
      match parse_u64 f1 with
      | none => none
      | some devMajor =>
        match fs1 with
        | [] => none
        | f2 :: fs2 =>
          match parse_u64 f2 with
          | none => none
          | some devMinor =>
            match fs2 with
            | [] => none
            | name :: _ =>
              if devMajor = major ∧ devMinor = minor then some name
              else resolve_device_name_from_lines rest major minor

/-- fn resolve_device_name_from_content(content, major, minor):
scan the lines of a /proc/diskstats text for the first line whose first
two fields are the requested major and minor, returning its third field. -/
def resolve_device_name_from_content (content : Str) (major minor : Nat) : Option Str :=
  resolve_device_name_from_lines (rustLines content) major minor

/-- fn parse_rotational(content): "1" means HDD, "0" means SSD, anything
else is unknown.  The source trims the content first. -/
def parse_rotational (content : Str) : Option Bool :=
  match trim content with
  | ['1'] => some true
  | ['0'] => some false
  | _ => none
where
  /-- Rust str.trim: strip leading and trailing whitespace. -/
  trim (s : Str) : Str :=
    ((s.dropWhile Char.isWhitespace).reverse.dropWhile Char.isWhitespace).reverse

/-- fn parse_nr_requests(content): the trimmed content parsed as u64. -/
def parse_nr_requests (content : Str) : Option Nat :=
  parse_u64 (parse_rotational.trim content)

/-! ## crates/utils/src/os/linux.rs — filesystem environment

The functions below do real filesystem reads in the source
(read_to_string, read_link, Path::exists).  They are embedded over an
explicit environment record supplying the outcome of each primitive, so
every function stays pure and the control flow is translated verbatim. -/

/-- The filesystem facts the linux.rs helpers consult: the content of
/proc/diskstats (none models a read error), symlink targets, file
contents by path, and path existence. -/
structure LinuxEnv where
  diskstats : Option Str
  read_link : Str → Option Str
  read_file : Str → Option Str
  path_exists : Str → Bool

/-- fn resolve_device_name_from_diskstats(major, minor): read
/proc/diskstats and delegate to resolve_device_name_from_content. -/
def resolve_device_name_from_diskstats (env : LinuxEnv) (major minor : Nat) : Option Str :=
  (env.diskstats).bind (fun content => resolve_device_name_from_content content major minor)

/-- Path::parent().file_name() of a sysfs symlink target, modelled by
splitting the path at slashes and taking the next-to-last component. -/
def path_parent_file_name (target : Str) : Option Str :=
  ((splitOnSlash target).dropLast).getLast?
where
  /-- Split a path at slash characters. -/
  splitOnSlash : Str → List Str
    | [] => [[]]
    | '/' :: rest => [] :: splitOnSlash rest
    | c :: rest =>
      match splitOnSlash rest with
      | [] => [[c]]
      | l :: ls => (c :: l) :: ls

/-- fn parent_device_from_sysfs_path(target, device_name): take the name
of the target's parent directory; use it only when it differs from the
device and its queue/rotational file exists, otherwise keep the device. -/
def parent_device_from_sysfs_path (env : LinuxEnv) (target device_name : Str) : Str :=
  match path_parent_file_name target with
  | some parent_str =>
    if parent_str ≠ device_name ∧
        env.path_exists (("/sys/block/").data ++ parent_str ++ ("/queue/rotational").data) then
      parent_str
    else device_name
  | none => device_name

/-- fn resolve_parent_device(device_name): read the
/sys/class/block symlink; on failure keep the device name. -/
def resolve_parent_device (env : LinuxEnv) (device_name : Str) : Str :=
  match env.read_link (("/sys/class/block/").data ++ device_name) with
  | some target => parent_device_from_sysfs_path env target device_name
  | none => device_name

/-- fn read_sysfs_rotational(device_name): read and parse
/sys/block/device/queue/rotational. -/
def read_sysfs_rotational (env : LinuxEnv) (device_name : Str) : Option Bool :=
  (env.read_file (("/sys/block/").data ++ device_name ++ ("/queue/rotational").data)).bind
    parse_rotational

/-- fn read_sysfs_nr_requests(device_name): read and parse
/sys/block/device/queue/nr_requests, defaulting to 0. -/
def read_sysfs_nr_requests (env : LinuxEnv) (device_name : Str) : Nat :=
  ((env.read_file (("/sys/block/").data ++ device_name ++ ("/queue/nr_requests").data)).bind
    parse_nr_requests).getD 0

/-- fn get_block_device_properties(major, minor): resolve the device name
from /proc/diskstats (unknown device gives the conservative HDD default),
then read rotational and nr_requests from sysfs for the parent device,
treating an unreadable rotational flag as HDD. -/
def get_block_device_properties (env : LinuxEnv) (major minor : Nat) : Str × Bool × Nat :=
  match resolve_device_name_from_diskstats env major minor with
  | none => ([], true, 0)
  | some device_name =>
    let parent_device := resolve_parent_device env device_name
    let rotational := read_sysfs_rotational env parent_device
    let nrrequests := read_sysfs_nr_requests env parent_device
    (device_name, rotational.getD true, nrrequests)

/-! ## crates/utils/src/os/linux.rs — get_info -/

/-- The statfs fields get_info reads.  On Linux f_bsize, f_frsize and
f_type are signed words; the block counts are u64. -/
structure StatFs where
  f_bsize : Int
  f_frsize : Int
  f_blocks : Nat
  f_bfree : Nat
  f_bavail : Nat
  f_files : Nat
  f_ffree : Nat
  f_type : Int

/-- The error kinds distinguishable in the embedded io::Result values:
Error::other with a message, ErrorKind::InvalidData, and an operating
system error propagated by the question-mark operator. -/
inductive IOErrorKind where
  | other
  | invalidData
  | osError
deriving DecidableEq

/-- The DiskInfo record get_info fills in. -/
structure DiskInfo where
  total : Nat
  free : Nat
  used : Nat
  files : Nat
  ffree : Nat
  fstype : String
  major : Nat
  minor : Nat
  name : Str
  rotational : Bool
  nrrequests : Nat
deriving DecidableEq

/-- A Rust `x as u64` cast of a signed 64-bit value. -/
def int_as_u64 (x : Int) : Nat :=
  (x % 2 ^ 64).toNat

/-- Rust u64::checked_sub: some difference when it does not underflow. -/
def checked_sub (a b : Nat) : Option Nat :=
  if b ≤ a then some (a - b) else none

/-- Wrapping u64 multiplication. -/
def u64_mul (a b : Nat) : Nat :=
  a * b % 2 ^ 64

/-- fn get_fs_type(fs_type): the filesystem magic-number table. -/
def get_fs_type (fs_type : Nat) : String :=
  if fs_type = 0x01021994 then "TMPFS"
  else if fs_type = 0x4d44 then "MSDOS"
  else if fs_type = 0x6969 then "NFS"
  else if fs_type = 0xEF53 then "EXT4"
  else if fs_type = 0xf15f then "ecryptfs"
  else if fs_type = 0x794c7630 then "overlayfs"
  else if fs_type = 0x52654973 then "REISERFS"
  else "UNKNOWN"

/-- The block unit get_info selects: f_frsize when positive, f_bsize
otherwise, both cast to u64. -/
def statBsize (stat : StatFs) : Nat :=
  if stat.f_frsize > 0 then int_as_u64 stat.f_frsize else int_as_u64 stat.f_bsize

/-- fn get_info(p): compute total, free and used bytes from a statfs
result with checked subtractions (each failure is an Error::other fsck
message), then stat the path for its device numbers (st_dev given as
none models a failing stat call, propagated as an OS error) and attach
the block-device properties.  The statfs call itself is assumed to have
succeeded: its result is the stat argument. -/
def get_info (env : LinuxEnv) (stat : StatFs) (st_dev : Option (Nat × Nat)) :
    Except IOErrorKind DiskInfo :=
  let bsize := statBsize stat
  let bfree := stat.f_bfree
  let bavail := stat.f_bavail
  let blocks := stat.f_blocks
  match checked_sub bfree bavail with
  | none => .error .other
  | some reserved =>
    match checked_sub blocks reserved with
    | none => .error .other
    | some totalBlocks =>
      let total := u64_mul totalBlocks bsize
      let free := u64_mul bavail bsize
      match checked_sub total free with
      | none => .error .other
      | some used =>
        match st_dev with
        | none => .error .osError
        | some (major, minor) =>
          let props := get_block_device_properties env major minor
          .ok {
            total := total
            free := free
            used := used
            files := stat.f_files
            ffree := stat.f_ffree
            fstype := get_fs_type (int_as_u64 stat.f_type)
            major := major
            minor := minor
            name := props.1
            rotational := props.2.1
            nrrequests := props.2.2
          }

/-! ## crates/utils/src/os/linux.rs — drive stats -/

/-- The IOStats record, all fields defaulting to zero. -/
structure IOStats where
  read_ios : Nat := 0
  read_merges : Nat := 0
  read_sectors : Nat := 0
  read_ticks : Nat := 0
  write_ios : Nat := 0
  write_merges : Nat := 0
  write_sectors : Nat := 0
  write_ticks : Nat := 0
  current_ios : Nat := 0
  total_ticks : Nat := 0
  req_ticks : Nat := 0
  discard_ios : Nat := 0
  discard_merges : Nat := 0
  discard_sectors : Nat := 0
  discard_ticks : Nat := 0
deriving DecidableEq

/-- The token loop of read_stat: parse every whitespace token as u64,
failing with InvalidData on the first token that does not parse. -/
def parse_tokens : List Str → Except IOErrorKind (List Nat)
  | [] => .ok []
  | t :: rest =>
    match parse_u64 t with
    | none => .error .invalidData
    | some n =>
      match parse_tokens rest with
      | .ok ns => .ok (n :: ns)
      | .error e => .error e

/-- fn read_stat(file_name): read the first line of the file (none
models an empty file, yielding no tokens) and parse its whitespace
tokens as u64 values. -/
def read_stat (first_line : Option Str) : Except IOErrorKind (List Nat) :=
  match first_line with
  | none => .ok []
  | some line => parse_tokens (splitWhitespace line)

/-- fn read_drive_stats(stats_file): read the stat tokens; fewer than 11
is InvalidData; tokens 0 to 10 fill the read/write/queue fields; the
discard fields are filled from tokens 11 to 14 only when more than 14
tokens are present, otherwise they keep their zero default. -/
def read_drive_stats (first_line : Option Str) : Except IOErrorKind IOStats :=
  match read_stat first_line with
  | .error e => .error e
  | .ok stats =>
    if stats.length < 11 then .error .invalidData
    else
      let io_stats : IOStats := {
        read_ios := stats.getD 0 0
        read_merges := stats.getD 1 0
        read_sectors := stats.getD 2 0
        read_ticks := stats.getD 3 0
        write_ios := stats.getD 4 0
        write_merges := stats.getD 5 0
        write_sectors := stats.getD 6 0
        write_ticks := stats.getD 7 0
        current_ios := stats.getD 8 0
        total_ticks := stats.getD 9 0
        req_ticks := stats.getD 10 0
      }
      if stats.length > 14 then
        .ok { io_stats with
          discard_ios := stats.getD 11 0
          discard_merges := stats.getD 12 0
          discard_sectors := stats.getD 13 0
          discard_ticks := stats.getD 14 0 }
      else .ok io_stats

/-! ## Listing core — Entry model and streaming transport

Modelled from the spec: the implementation of the listing core
(rustfs_filemeta::MetaCacheEntry, the walker, MetacacheReader and
list_path_raw) is not among the visible sources; only its benchmark
harness is.  The definitions below follow sections 3, 4.1, 4.3 and 6 of
the specification. -/

/-- Modelled from the spec: the Entry of the listing core (section 3) —
a byte-string name whose sort order is lexicographic byte order, and an
optional opaque metadata payload whose absence marks a directory
placeholder.  The missing source is rustfs_filemeta::MetaCacheEntry. -/
structure MetaCacheEntry where
  name : Str
  metadata : Option (List Nat)
deriving DecidableEq

/-- The name of an entry. -/
def entryName (e : MetaCacheEntry) : Str :=
  e.name

/-- Modelled from the spec: a length prefix of the streaming framing
(section 6), written as four little-endian bytes; the spec leaves the
integer encoding open, so a fixed 32-bit prefix is used. -/
def encodeLen (n : Nat) : List Nat :=
  [n % 256, n / 256 % 256, n / 256 ^ 2 % 256, n / 256 ^ 3 % 256]

/-- Read back a four-byte little-endian length prefix. -/
def decodeLen : List Nat → Option (Nat × List Nat)
  | b0 :: b1 :: b2 :: b3 :: rest =>
    some (b0 + 256 * b1 + 256 ^ 2 * b2 + 256 ^ 3 * b3, rest)
  | _ => none

/-- Take exactly n bytes from the front of the stream. -/
def readN (n : Nat) (bs : List Nat) : Option (List Nat × List Nat) :=
  if n ≤ bs.length then some (bs.take n, bs.drop n) else none

/-- Modelled from the spec: one framed record of the streaming transport
(section 6) — name length, name bytes, metadata-present flag, and when
present the metadata length and bytes.  The missing source is the
metacache stream writer. -/
def encodeEntry (e : MetaCacheEntry) : List Nat :=
  encodeLen e.name.length ++ e.name.map Char.toNat ++
    match e.metadata with
    | none => [0]
    | some m => 1 :: (encodeLen m.length ++ m)

/-- Modelled from the spec: decoding one framed record back into an
entry, together with the rest of the stream.  The missing source is the
MetacacheReader record decoder. -/
def decodeEntry (bs : List Nat) : Option (MetaCacheEntry × List Nat) :=
  match decodeLen bs with
  | none => none
  | some (nlen, bs1) =>
    match readN nlen bs1 with
    | none => none
    | some (nameBytes, bs2) =>
      match bs2 with
      | 0 :: bs3 => some (⟨nameBytes.map Char.ofNat, none⟩, bs3)
      | 1 :: bs3 =>
        match decodeLen bs3 with
        | none => none
        | some (mlen, bs4) =>
          match readN mlen bs4 with
          | none => none
          | some (meta, bs5) => some (⟨nameBytes.map Char.ofNat, some meta⟩, bs5)
      | _ => none
  

/-- Modelled from the spec: the reader's peek (section 4.3) — the next
entry of the byte stream without consuming it; none at end of stream. -/
def peekEntry (bs : List Nat) : Option MetaCacheEntry :=
  (decodeEntry bs).map (fun p => p.1)

/-- Modelled from the spec: consuming one entry — the stream after fully
decoding the next record. -/
def consumeEntry (bs : List Nat) : Option (List Nat) :=
  (decodeEntry bs).map (fun p => p.2)

/-- Modelled from the spec: skipping one record by its length prefixes
alone, without deserializing the metadata payload (section 4.3). -/
def skipRecord (bs : List Nat) : Option (List Nat) :=
  match decodeLen bs with
  | none => none
  | some (nlen, bs1) =>
    match readN nlen bs1 with
    | none => none
    | some (_, bs2) =>
      match bs2 with
      | 0 :: bs3 => some bs3
      | 1 :: bs3 =>
        match decodeLen bs3 with
        | none => none
        | some (mlen, bs4) => (readN mlen bs4).map (fun p => p.2)
      | _ => none

/-- Modelled from the spec: skip(k) — consume and discard k records by
length skipping. -/
def skipN : Nat → List Nat → Option (List Nat)
  | 0, bs => some bs
  | k + 1, bs => (skipRecord bs).bind (skipN k)

/-- k sequential full consumes of the stream. -/
def consumeN : Nat → List Nat → Option (List Nat)
  | 0, bs => some bs
  | k + 1, bs => (consumeEntry bs).bind (consumeN k)

/-- The serialized stream of a walker's entry sequence, in emission
order; the empty remainder is the end-of-stream condition. -/
def encodeStream (es : List MetaCacheEntry) : List Nat :=
  (es.map encodeEntry).flatten

/-- An entry whose name and metadata fit the 32-bit length prefixes of
the framing. -/
def validEntry (e : MetaCacheEntry) : Prop :=
  e.name.length < 2 ^ 32 ∧ ∀ m, e.metadata = some m → m.length < 2 ^ 32

/-! ## Listing core — single-disk walker

Modelled from the spec: the walker's scan_dir is not among the visible
sources.  Directory trees, the object test via the canonical metadata
file, empty-plain-directory skipping and directory markers follow
section 4.2; the resumption cursor and result cap follow sections 3
and 4.2. -/

/-- Modelled from the spec: one directory of a disk's tree.  It may hold
the canonical per-object metadata file (making it an object whose raw
bytes become the entry metadata), and it has named subdirectories. -/
inductive FsDir where
  | node (objMeta : Option (List Nat)) (children : List (Str × FsDir))

/-- The canonical metadata file of a directory, when present. -/
def FsDir.objMeta : FsDir → Option (List Nat)
  | .node m _ => m

/-- The named subdirectories of a directory. -/
def FsDir.children : FsDir → List (Str × FsDir)
  | .node _ c => c

/-- Modelled from the spec: the walker's scan of one directory level
(section 4.2).  For each child: a child holding the canonical metadata
file is emitted as one object entry and never descended into; a plain
directory that is empty is skipped entirely; a non-empty plain directory
is descended into when recursive (its name, slash-terminated, prepended
to children's names) and otherwise emitted as a directory-marker entry
without metadata.  The second component records every directory the
walker descends into. -/
def scanChildren (recursive : Bool) (pre : Str) :
    List (Str × FsDir) → List MetaCacheEntry × List Str
  | [] => ([], [])
  | (n, FsDir.node om ch) :: rest =>
    let here : List MetaCacheEntry × List Str :=
      match om with
      | some meta => ([⟨pre ++ n, some meta⟩], [])
      | none =>
        if ch.isEmpty then ([], [])
        else if recursive then
          let r := scanChildren recursive (pre ++ n ++ ['/']) ch
          (r.1, (pre ++ n) :: r.2)
        else ([⟨pre ++ n ++ ['/'], none⟩], [])
    let tail := scanChildren recursive pre rest
    (here.1 ++ tail.1, here.2 ++ tail.2)

/-- Modelled from the spec: the per-disk scan configuration (section 3)
— the recursive flag, the optional resumption cursor (skip all names at
or below it), and the optional result cap. -/
structure WalkDirOptions where
  recursive : Bool
  forward_to : Option Str := none
  limit : Option Nat := none

/-- Modelled from the spec: walk_dir on one disk — scan the children of
the bucket-plus-prefix root, then apply the resumption cursor and the
result cap to the emitted entries.  The returned pair is the entry
sequence and the trace of descended directories. -/
def walk_dir (o : WalkDirOptions) (root : FsDir) : List MetaCacheEntry × List Str :=
  let r := scanChildren o.recursive [] root.children
  let ents :=
    match o.forward_to with
    | none => r.1
    | some cursor => r.1.filter (fun e => cursor < e.name)
  let ents :=
    match o.limit with
    | none => ents
    | some cap => ents.take cap
  (ents, r.2)

/-! ## Listing core — multi-disk merge engine

Modelled from the spec: list_path_raw and its merge loop (section 4.4)
are not among the visible sources; only the benchmark harness calling
them is.  Each disk is represented by the sorted entry stream its walker
produces; cancellation and the finished callback are outside the claims
and are not modelled. -/

/-- One callback invocation of the merge engine: an agreed event carries
the dominant variant of a name, a divergent event models the partial
callback and carries the full set of per-disk raw entries observed for
the name. -/
inductive MergeEvent where
  | agreed (e : MetaCacheEntry)
  | divergent (entries : List MetaCacheEntry)
deriving DecidableEq

/-- The name an event was emitted for.  Divergent events always carry at
least one contributor, all with the same name. -/
def eventName : MergeEvent → Str
  | .agreed e => e.name
  | .divergent entries =>
    match entries with
    | e :: _ => e.name
    | [] => []

/-- The least of a bag of names in lexicographic byte order, folded from
a first candidate. -/
def listMin : Str → List Str → Str
  | acc, [] => acc
  | acc, n :: ns => listMin (min acc n) ns

/-- Advance one disk stream past the current round's name: the head is
consumed exactly when the disk contributed it. -/
def advOne (m : Str) : List MetaCacheEntry → List MetaCacheEntry
  | [] => []
  | e :: rest => if e.name = m then rest else e :: rest

/-- The support count of a round (section 4.4): contributors are grouped
by entry equality and the largest group's size is taken. -/
def supportCount (contribs : List MetaCacheEntry) : Nat :=
  (contribs.map (fun e => contribs.count e)).foldr max 0

/-- The dominant variant of a round: the first contributor whose
equality group has the support count. -/
def dominantEntry (contribs : List MetaCacheEntry) : MetaCacheEntry :=
  (contribs.find? (fun e => contribs.count e = supportCount contribs)).getD ⟨[], none⟩

/-- Classify one round (section 4.4): the disks whose peeked entry has
the round's minimal name are the contributors; their dominant variant is
agreed when its support reaches min_disks, otherwise the round is
divergent and carries every contributor's raw entry. -/
def mergeRound (min_disks : Nat) (heads : List MetaCacheEntry) (m : Str) : MergeEvent :=
  let contribs := heads.filter (fun e => e.name = m)
  if min_disks ≤ supportCount contribs then .agreed (dominantEntry contribs)
  else .divergent contribs

/-- The merge loop with explicit fuel: peek every still-live stream,
pick the smallest peeked name, emit its classification event, advance
only the contributors, and repeat until every stream is exhausted.  One
entry is consumed per round, so fuel equal to the total entry count
makes the fuel bound immaterial. -/
def mergeLoopF : Nat → Nat → List (List MetaCacheEntry) → List MergeEvent
  | 0, _, _ => []
  | fuel + 1, min_disks, streams =>
    match streams.filterMap List.head? with
    | [] => []
    | e :: rest =>
      mergeRound min_disks (e :: rest) (listMin e.name (rest.map entryName)) ::
        mergeLoopF fuel min_disks
          (streams.map (advOne (listMin e.name (rest.map entryName))))

/-- Modelled from the spec: the k-way sorted merge of section 4.4 over
the per-disk entry streams. -/
def mergeLoop (min_disks : Nat) (streams : List (List MetaCacheEntry)) : List MergeEvent :=
  mergeLoopF ((streams.map List.length).sum) min_disks streams

/-- The terminal failure of a listing call that the claims exercise. -/
inductive ListErr where
  | quorumUnmet
deriving DecidableEq

/-- The observable outcome of one listing call: the callback invocations
in order, and the terminal error when the call failed. -/
structure ListResult where
  events : List MergeEvent
  err : Option ListErr
deriving DecidableEq

/-- Modelled from the spec: the caller-facing multi-disk request
(section 3) — the ordered disk slots (a none slot is a disk known to be
offline, skipped without error), the fallback disk set, and the quorum
threshold.  Each present slot carries the entry stream its walker
produces.  The bucket, path, filters, caps and callbacks are either
folded into the streams or observed through the returned events. -/
structure ListPathRawOptions where
  disks : List (Option (List MetaCacheEntry))
  fallback_disks : List (Option (List MetaCacheEntry))
  min_disks : Nat

/-- Modelled from the spec: list_path_raw (sections 4.4 and 7) — spawn a
walker for every present disk slot; when fewer live disks than min_disks
remain, take fallback disks until the threshold is met; if it cannot be
met the call fails with QuorumUnmet before any callback fires, otherwise
the merge loop runs to completion. -/
def list_path_raw (o : ListPathRawOptions) : ListResult :=
  let live := o.disks.filterMap id
  let extra := (o.fallback_disks.filterMap id).take (o.min_disks - live.length)
  let all := live ++ extra
  if all.length < o.min_disks then ⟨[], some .quorumUnmet⟩
  else ⟨mergeLoop o.min_disks all, none⟩

/-- The number of agreed events in a trace. -/
def countAgreed (evs : List MergeEvent) : Nat :=
  (evs.filter (fun ev => match ev with | .agreed _ => true | _ => false)).length

/-- The number of divergent (partial-callback) events in a trace. -/
def countDivergent (evs : List MergeEvent) : Nat :=
  (evs.filter (fun ev => match ev with | .divergent _ => true | _ => false)).length

/-! ## Theorems — linux.rs claims -/

/-- Claim C7: for every (major, minor) pair with no device name
resolvable from /proc/diskstats, get_block_device_properties returns the
conservative rotational default (empty name, rotational true,
nrrequests 0); and whenever the sysfs rotational file of the resolved
device's parent cannot be read or parsed, the rotational flag also
defaults to true. -/
theorem C7_block_device_conservative_default (env : LinuxEnv) (major minor : Nat) :
    (resolve_device_name_from_diskstats env major minor = none →
      get_block_device_properties env major minor = ([], true, 0)) ∧
    (∀ name, resolve_device_name_from_diskstats env major minor = some name →
      read_sysfs_rotational env (resolve_parent_device env name) = none →
      (get_block_device_properties env major minor).2.1 = true) := by
  constructor
  · intro h
    simp [get_block_device_properties, h]
  · intro name h hrot
    simp [get_block_device_properties, h, hrot]

/-- Claim C7 witness: a filesystem with no readable /proc/diskstats
yields the full conservative default, and a resolved device whose sysfs
files are unreadable is still reported rotational. -/
theorem C7_block_device_conservative_default_witness :
    get_block_device_properties ⟨none, fun _ => none, fun _ => none, fun _ => false⟩ 999 999
        = ([], true, 0) ∧
    (get_block_device_properties
        ⟨some (("8 0 sda 10 20").data), fun _ => none, fun _ => none, fun _ => false⟩ 8 0).2.1
        = true := by
  constructor
  · exact (C7_block_device_conservative_default
      ⟨none, fun _ => none, fun _ => none, fun _ => false⟩ 999 999).1 rfl
  · exact (C7_block_device_conservative_default
      ⟨some (("8 0 sda 10 20").data), fun _ => none, fun _ => none, fun _ => false⟩ 8 0).2
      (("sda").data) (by decide) rfl

/-- One step of the diskstats loop, phrased through lineParsed: a
malformed line aborts the whole scan, a matching line returns its third
field, any other line falls through to the remaining lines. -/
theorem resolve_cons (line : Str) (rest : List Str) (major minor : Nat) :
    resolve_device_name_from_lines (line :: rest) major minor =
      (match lineParsed line with
       | none => none
       | some (devMajor, devMinor, f3) =>
         if devMajor = major ∧ devMinor = minor then some f3
         else resolve_device_name_from_lines rest major minor) := by
  rcases hsw : splitWhitespace line with _ | ⟨f1, _ | ⟨f2, _ | ⟨f3, fs⟩⟩⟩
  · simp [resolve_device_name_from_lines, lineParsed, hsw]
  · rcases hp1 : parse_u64 f1 with _ | M <;>
      simp [resolve_device_name_from_lines, lineParsed, hsw, hp1]
  · rcases hp1 : parse_u64 f1 with _ | M <;>
      rcases hp2 : parse_u64 f2 with _ | m <;>
      simp [resolve_device_name_from_lines, lineParsed, hsw, hp1, hp2]
  · rcases hp1 : parse_u64 f1 with _ | M <;>
      rcases hp2 : parse_u64 f2 with _ | m <;>
      simp [resolve_device_name_from_lines, lineParsed, hsw, hp1, hp2]

/-- Claim C8: scanning a diskstats text for a (major, minor) pair —
when every line up to and including the first matching one is well
formed (at least three whitespace fields, numeric first and second),
the scan returns the third field of the first matching line, and none
when no line matches; but one malformed line before any match makes the
whole scan return none, even when a later well-formed line matches. -/
theorem C8_resolve_device_name_characterization (ls : List Str) (major minor : Nat) :
    ((∀ l ∈ ls.takeWhile (fun l => ! lineMatches major minor l), lineParsed l ≠ none) →
      resolve_device_name_from_lines ls major minor =
        (ls.find? (lineMatches major minor)).bind (fun l => (lineParsed l).map (fun p => p.2.2)))
    ∧ ((∃ l ∈ ls.takeWhile (fun l => ! lineMatches major minor l), lineParsed l = none) →
      resolve_device_name_from_lines ls major minor = none) := by
  induction ls with
  | nil => simp [resolve_device_name_from_lines]
  | cons line rest ih =>
    rcases hp : lineParsed line with _ | ⟨M, m, f3⟩
    · have hmf : lineMatches major minor line = false := by
        simp [lineMatches, hp]
      have hres : resolve_device_name_from_lines (line :: rest) major minor = none := by
        rw [resolve_cons, hp]
      constructor
      · intro h
        exfalso
        exact h line (by simp [List.takeWhile_cons, hmf]) hp
      · intro _
        exact hres
    · by_cases hmm : M = major ∧ m = minor
      · have hmt : lineMatches major minor line = true := by
          simp [lineMatches, hp, hmm.1, hmm.2]
        have hres : resolve_device_name_from_lines (line :: rest) major minor = some f3 := by
          rw [resolve_cons, hp]
          simp [hmm]
        constructor
        · intro _
          rw [hres]
          simp [List.find?_cons, hmt, hp]
        · intro hex
          rcases hex with ⟨l, hl, _⟩
          rw [List.takeWhile_cons, hmt] at hl
          simp at hl
      · have hmf : lineMatches major minor line = false := by
          simp [lineMatches, hp]
          intro h1 h2
          exact hmm ⟨h1, h2⟩
        have hres : resolve_device_name_from_lines (line :: rest) major minor =
            resolve_device_name_from_lines rest major minor := by
          rw [resolve_cons, hp]
          simp [hmm]
        constructor
        · intro h
          rw [hres, List.find?_cons, hmf]
          exact ih.1 (fun l hl => h l (by simp [List.takeWhile_cons, hmf, hl]))
        · intro hex
          rcases hex with ⟨l, hl, hlp⟩
          rw [List.takeWhile_cons, hmf] at hl
          simp at hl
          rcases hl with rfl | hl
          · rw [hp] at hlp
            exact absurd hlp (by simp)
          · exact hres.trans (ih.2 ⟨l, hl, hlp⟩)

/-- Claim C8 witness: a well-formed two-line diskstats text resolves the
second line's device name, and a malformed first line hides a later
match. -/
theorem C8_resolve_device_name_characterization_witness :
    resolve_device_name_from_lines [("8 0 sda 100").data, ("8 16 sdb 200").data] 8 16 =
      (([("8 0 sda 100").data, ("8 16 sdb 200").data].find? (lineMatches 8 16)).bind
        (fun l => (lineParsed l).map (fun p => p.2.2))) ∧
    resolve_device_name_from_lines [("bad").data, ("8 16 sdb 200").data] 8 16 = none := by
  constructor
  · exact (C8_resolve_device_name_characterization
      [("8 0 sda 100").data, ("8 16 sdb 200").data] 8 16).1 (by decide)
  · exact (C8_resolve_device_name_characterization
      [("bad").data, ("8 16 sdb 200").data] 8 16).2 (by decide)

/-- A successful token parse yields one value per token. -/
theorem parse_tokens_length :
    ∀ (ts : List Str) (ns : List Nat), parse_tokens ts = .ok ns → ns.length = ts.length := by
  intro ts
  induction ts with
  | nil =>
    intro ns h
    simp [parse_tokens] at h
    simp [← h]
  | cons t rest ih =>
    intro ns h
    unfold parse_tokens at h
    rcases hp : parse_u64 t with _ | n
    · rw [hp] at h
      simp at h
    · rw [hp] at h
      rcases hr : parse_tokens rest with e | ms
      · rw [hr] at h
        simp at h
      · rw [hr] at h
        simp at h
        rw [← h]
        simp [ih ms hr]

/-- Claim C10: for a stats line whose tokens all parse as u64,
read_drive_stats fails with InvalidData exactly when there are fewer
than 11 tokens; with 11 or more tokens it returns the eleven
read/write/queue fields from tokens 0 to 10, and the four discard
fields are zero unless there are more than 14 tokens, in which case
they come from tokens 11 to 14. -/
theorem C10_read_drive_stats_characterization (line : Str) (ns : List Nat)
    (h : parse_tokens (splitWhitespace line) = .ok ns) :
    ns.length = (splitWhitespace line).length ∧
    (read_drive_stats (some line) = .error .invalidData ↔ ns.length < 11) ∧
    (11 ≤ ns.length →
      read_drive_stats (some line) = .ok {
        read_ios := ns.getD 0 0
        read_merges := ns.getD 1 0
        read_sectors := ns.getD 2 0
        read_ticks := ns.getD 3 0
        write_ios := ns.getD 4 0
        write_merges := ns.getD 5 0
        write_sectors := ns.getD 6 0
        write_ticks := ns.getD 7 0
        current_ios := ns.getD 8 0
        total_ticks := ns.getD 9 0
        req_ticks := ns.getD 10 0
        discard_ios := if 14 < ns.length then ns.getD 11 0 else 0
        discard_merges := if 14 < ns.length then ns.getD 12 0 else 0
        discard_sectors := if 14 < ns.length then ns.getD 13 0 else 0
        discard_ticks := if 14 < ns.length then ns.getD 14 0 else 0 }) := by
  refine ⟨parse_tokens_length _ ns h, ?_, ?_⟩
  · simp only [read_drive_stats, read_stat, h]
    by_cases hlen : ns.length < 11
    · simp [hlen]
    · simp [hlen]
      by_cases h14 : ns.length > 14 <;> simp [h14]
  · intro hlen
    simp only [read_drive_stats, read_stat, h]
    have hlt : ¬ ns.length < 11 := by omega
    by_cases h14 : ns.length > 14 <;> simp [hlt, h14]

/-- Claim C10 witness: an eleven-token line yields zero discard fields,
a fifteen-token line fills them from tokens 11 to 14, and a short line
is InvalidData. -/
theorem C10_read_drive_stats_characterization_witness :
    read_drive_stats (some (("1 2 3 4 5 6 7 8 9 10 11").data)) = .ok {
      read_ios := 1, read_merges := 2, read_sectors := 3, read_ticks := 4
      write_ios := 5, write_merges := 6, write_sectors := 7, write_ticks := 8
      current_ios := 9, total_ticks := 10, req_ticks := 11 } ∧
    (read_drive_stats (some (("1 2 3").data)) = .error .invalidData ↔
      ([1, 2, 3] : List Nat).length < 11) := by
  constructor
  · have h := (C10_read_drive_stats_characterization (("1 2 3 4 5 6 7 8 9 10 11").data)
      [1, 2, 3, 4, 5, 6, 7, 8, 9, 10, 11] (by rfl)).2.2 (by decide)
    rw [h]
    rfl
  · exact (C10_read_drive_stats_characterization (("1 2 3").data) [1, 2, 3] (by rfl)).2.1

/-- checked_sub fails exactly on underflow. -/
theorem checked_sub_eq_none {a b : Nat} : checked_sub a b = none ↔ a < b := by
  unfold checked_sub
  split
  · simp
    omega
  · simp
    omega

/-- A successful checked_sub is the exact difference. -/
theorem checked_sub_eq_some {a b c : Nat} (h : checked_sub a b = some c) :
    b ≤ a ∧ c = a - b := by
  unfold checked_sub at h
  split at h
  · cases h
    omega
  · cases h

/-- Claim C9: for every successful statfs result, get_info either
errors or returns a DiskInfo with used + free = total exactly, free
being f_bavail times the block unit and total being
(f_blocks - (f_bfree - f_bavail)) times the block unit (as the u64
computation, exact whenever the products fit); and it errors — never
wraps — whenever f_bavail exceeds f_bfree, or the reserved count
exceeds f_blocks, or the computed free exceeds the computed total. -/
theorem C9_get_info_accounting (env : LinuxEnv) (stat : StatFs) (st_dev : Option (Nat × Nat)) :
    (∀ info, get_info env stat st_dev = .ok info →
      info.used + info.free = info.total ∧
      info.free = u64_mul stat.f_bavail (statBsize stat) ∧
      info.total = u64_mul (stat.f_blocks - (stat.f_bfree - stat.f_bavail)) (statBsize stat) ∧
      (stat.f_bavail * statBsize stat < 2 ^ 64 →
        info.free = stat.f_bavail * statBsize stat) ∧
      ((stat.f_blocks - (stat.f_bfree - stat.f_bavail)) * statBsize stat < 2 ^ 64 →
        info.total = (stat.f_blocks - (stat.f_bfree - stat.f_bavail)) * statBsize stat)) ∧
    (stat.f_bfree < stat.f_bavail → get_info env stat st_dev = .error .other) ∧
    (stat.f_bavail ≤ stat.f_bfree → stat.f_blocks < stat.f_bfree - stat.f_bavail →
      get_info env stat st_dev = .error .other) ∧
    (u64_mul (stat.f_blocks - (stat.f_bfree - stat.f_bavail)) (statBsize stat) <
      u64_mul stat.f_bavail (statBsize stat) →
      get_info env stat st_dev = .error .other) := by
  rcases h1 : checked_sub stat.f_bfree stat.f_bavail with _ | reserved
  · have hlt := checked_sub_eq_none.mp h1
    have herr : get_info env stat st_dev = .error .other := by
      simp only [get_info, h1]
    refine ⟨?_, fun _ => herr, ?_, fun _ => herr⟩
    · intro info hinfo
      rw [herr] at hinfo
      cases hinfo
    · intro hle
      omega
  · obtain ⟨hba, hres⟩ := checked_sub_eq_some h1
    rcases h2 : checked_sub stat.f_blocks reserved with _ | totalBlocks
    · have hlt := checked_sub_eq_none.mp h2
      have herr : get_info env stat st_dev = .error .other := by
        simp only [get_info, h1, h2]
      refine ⟨?_, ?_, fun _ _ => herr, fun _ => herr⟩
      · intro info hinfo
        rw [herr] at hinfo
        cases hinfo
      · intro hlt2
        omega
    · obtain ⟨hrb, htb⟩ := checked_sub_eq_some h2
      rcases h3 : checked_sub (u64_mul totalBlocks (statBsize stat))
          (u64_mul stat.f_bavail (statBsize stat)) with _ | used
      · have hlt := checked_sub_eq_none.mp h3
        have herr : get_info env stat st_dev = .error .other := by
          simp only [get_info, h3, h1, h2]
        refine ⟨?_, ?_, ?_, fun _ => herr⟩
        · intro info hinfo
          rw [herr] at hinfo
          cases hinfo
        · intro hlt2
          omega
        · intro hle hlt2
          omega
      · obtain ⟨hfu, hused⟩ := checked_sub_eq_some h3
        have hok : ∀ info, get_info env stat st_dev = .ok info →
            info.used = used ∧
            info.free = u64_mul stat.f_bavail (statBsize stat) ∧
            info.total = u64_mul totalBlocks (statBsize stat) := by
          intro info hinfo
          simp only [get_info, h1, h2, h3] at hinfo
          rcases st_dev with _ | ⟨maj, min⟩
          · cases hinfo
          · cases hinfo
            exact ⟨rfl, rfl, rfl⟩
        refine ⟨?_, ?_, ?_, ?_⟩
        · intro info hinfo
          obtain ⟨hu, hf, ht⟩ := hok info hinfo
          have hT : totalBlocks = stat.f_blocks - (stat.f_bfree - stat.f_bavail) := by
            omega
          refine ⟨by omega, hf, by rw [ht, hT], ?_, ?_⟩
          · intro hfit
            rw [hf]
            unfold u64_mul
            omega
          · intro hfit
            rw [ht, hT]
            unfold u64_mul
            omega
        · intro hlt2
          omega
        · intro hle hlt2
          omega
        · intro hlt2
          have hT : totalBlocks = stat.f_blocks - (stat.f_bfree - stat.f_bavail) := by
            omega
          rw [← hT] at hlt2
          omega

/-- Claim C9 witness: a concrete healthy statfs result yields the exact
accounting identity, and a corrupt one (f_bavail above f_bfree) errors. -/
theorem C9_get_info_accounting_witness :
    get_info ⟨none, fun _ => none, fun _ => none, fun _ => false⟩
        ⟨4096, 1024, 100, 30, 20, 5, 4, 0xEF53⟩ (some (8, 0)) =
      .ok ⟨92160, 20480, 71680, 5, 4, "EXT4", 8, 0, [], true, 0⟩ ∧
    (71680 : Nat) + 20480 = 92160 ∧
    get_info ⟨none, fun _ => none, fun _ => none, fun _ => false⟩
        ⟨4096, 1024, 100, 20, 30, 5, 4, 0xEF53⟩ (some (8, 0)) = .error .other := by
  refine ⟨by rfl, ?_, ?_⟩
  · have h := (C9_get_info_accounting ⟨none, fun _ => none, fun _ => none, fun _ => false⟩
      ⟨4096, 1024, 100, 30, 20, 5, 4, 0xEF53⟩ (some (8, 0))).1
      ⟨92160, 20480, 71680, 5, 4, "EXT4", 8, 0, [], true, 0⟩ (by rfl)
    exact h.1
  · exact (C9_get_info_accounting ⟨none, fun _ => none, fun _ => none, fun _ => false⟩
      ⟨4096, 1024, 100, 20, 30, 5, 4, 0xEF53⟩ (some (8, 0))).2.1 (by norm_num)

/-! ## Theorems — streaming transport claims -/

/-- A four-byte length prefix decodes back to the encoded number when it
fits 32 bits, leaving the rest of the stream untouched. -/
theorem decodeLen_encodeLen (n : Nat) (rest : List Nat) (h : n < 2 ^ 32) :
    decodeLen (encodeLen n ++ rest) = some (n, rest) := by
  simp only [encodeLen, decodeLen, List.cons_append, List.nil_append]
  have hn : n % 256 + 256 * (n / 256 % 256) + 256 ^ 2 * (n / 256 ^ 2 % 256)
      + 256 ^ 3 * (n / 256 ^ 3 % 256) = n := by
    omega
  rw [hn]

/-- Reading exactly the length of a prepended block returns the block. -/
theorem readN_append (bs rest : List Nat) :
    readN bs.length (bs ++ rest) = some (bs, rest) := by
  unfold readN
  rw [if_pos (by simp), List.take_left, List.drop_left]

/-- Reading a name's byte image off the stream, phrased on the name's
own length. -/
theorem readN_map_toNat (name : Str) (rest : List Nat) :
    readN name.length (List.map Char.toNat name ++ rest) =
      some (List.map Char.toNat name, rest) := by
  have h := readN_append (List.map Char.toNat name) rest
  simpa using h

/-- Decoding an encoded entry at the head of a stream returns the entry
and the remaining stream. -/
theorem decodeEntry_encodeEntry (e : MetaCacheEntry) (rest : List Nat) (hv : validEntry e) :
    decodeEntry (encodeEntry e ++ rest) = some (e, rest) := by
  obtain ⟨hn, hm⟩ := hv
  rcases e with ⟨name, meta⟩
  rcases meta with _ | m
  · simp only [encodeEntry, List.append_assoc, List.cons_append, List.nil_append]
    unfold decodeEntry
    rw [decodeLen_encodeLen _ _ (by simpa using hn)]
    simp [readN_map_toNat, List.map_map, Function.comp_def, Char.ofNat_toNat]
  · have hmlen : m.length < 2 ^ 32 := hm m rfl
    simp only [encodeEntry, List.append_assoc, List.cons_append, List.nil_append]
    unfold decodeEntry
    rw [decodeLen_encodeLen _ _ (by simpa using hn)]
    simp [readN_map_toNat, readN_append, decodeLen_encodeLen _ _ hmlen,
      List.map_map, Function.comp_def, Char.ofNat_toNat]

/-- Claim C5: encoding any entry through the framed record format and
decoding it back is the identity — the name characters and the metadata
bytes (absent staying absent) are reproduced exactly. -/
theorem C5_entry_roundtrip (e : MetaCacheEntry) (hv : validEntry e) :
    decodeEntry (encodeEntry e) = some (e, []) := by
  have h := decodeEntry_encodeEntry e [] hv
  rwa [List.append_nil] at h

/-- Claim C5 witness: a concrete entry with metadata and one without
both survive the round trip. -/
theorem C5_entry_roundtrip_witness :
    decodeEntry (encodeEntry ⟨("obj_000001/xl.meta").data, some [0, 10]⟩) =
      some (⟨("obj_000001/xl.meta").data, some [0, 10]⟩, []) ∧
    decodeEntry (encodeEntry ⟨("dir_000001/").data, none⟩) =
      some (⟨("dir_000001/").data, none⟩, []) := by
  constructor
  · exact C5_entry_roundtrip ⟨("obj_000001/xl.meta").data, some [0, 10]⟩
      ⟨by norm_num, fun m hm => by cases hm; norm_num⟩
  · exact C5_entry_roundtrip ⟨("dir_000001/").data, none⟩
      ⟨by norm_num, fun m hm => by cases hm⟩

/-- Skipping one encoded record by its length prefixes leaves exactly
the remaining stream, without looking at the payload bytes. -/
theorem skipRecord_encodeEntry (e : MetaCacheEntry) (rest : List Nat) (hv : validEntry e) :
    skipRecord (encodeEntry e ++ rest) = some rest := by
  obtain ⟨hn, hm⟩ := hv
  rcases e with ⟨name, meta⟩
  rcases meta with _ | m
  · simp only [encodeEntry, List.append_assoc, List.cons_append, List.nil_append]
    unfold skipRecord
    rw [decodeLen_encodeLen _ _ (by simpa using hn)]
    simp [readN_map_toNat]
  · have hmlen : m.length < 2 ^ 32 := hm m rfl
    simp only [encodeEntry, List.append_assoc, List.cons_append, List.nil_append]
    unfold skipRecord
    rw [decodeLen_encodeLen _ _ (by simpa using hn)]
    simp [readN_map_toNat, readN_append, decodeLen_encodeLen _ _ hmlen]

/-- Consuming one encoded record through full decoding leaves exactly
the remaining stream. -/
theorem consumeEntry_encodeEntry (e : MetaCacheEntry) (rest : List Nat) (hv : validEntry e) :
    consumeEntry (encodeEntry e ++ rest) = some rest := by
  unfold consumeEntry
  rw [decodeEntry_encodeEntry e rest hv]
  rfl

/-- The encoded stream of a cons. -/
theorem encodeStream_cons (e : MetaCacheEntry) (es : List MetaCacheEntry) :
    encodeStream (e :: es) = encodeEntry e ++ encodeStream es := by
  simp [encodeStream]

/-- Skipping k records of a valid encoded stream leaves the encoding of
the stream without its first k entries. -/
theorem skipN_encodeStream :
    ∀ (k : Nat) (es : List MetaCacheEntry), (∀ e ∈ es, validEntry e) → k ≤ es.length →
      skipN k (encodeStream es) = some (encodeStream (es.drop k)) := by
  intro k
  induction k with
  | zero =>
    intro es _ _
    simp [skipN]
  | succ k ih =>
    intro es hv hk
    rcases es with _ | ⟨e, es'⟩
    · exact absurd hk (by simp)
    · rw [encodeStream_cons]
      unfold skipN
      rw [skipRecord_encodeEntry e _ (hv e (by simp))]
      simpa using ih es' (fun x hx => hv x (by simp [hx])) (by simpa using hk)

/-- Consuming k records of a valid encoded stream leaves the encoding
of the stream without its first k entries. -/
theorem consumeN_encodeStream :
    ∀ (k : Nat) (es : List MetaCacheEntry), (∀ e ∈ es, validEntry e) → k ≤ es.length →
      consumeN k (encodeStream es) = some (encodeStream (es.drop k)) := by
  intro k
  induction k with
  | zero =>
    intro es _ _
    simp [consumeN]
  | succ k ih =>
    intro es hv hk
    rcases es with _ | ⟨e, es'⟩
    · exact absurd hk (by simp)
    · rw [encodeStream_cons]
      unfold consumeN
      rw [consumeEntry_encodeEntry e _ (hv e (by simp))]
      simpa using ih es' (fun x hx => hv x (by simp [hx])) (by simpa using hk)

/-- Claim C6: for every entry stream and every k at most the remaining
stream length, skip(k) followed by peek gives the same result as k
sequential consumes followed by peek — both leave the same remaining
stream, the encoding of the entries after the first k. -/
theorem C6_skip_then_peek_eq_consume_then_peek (es : List MetaCacheEntry) (k : Nat)
    (hv : ∀ e ∈ es, validEntry e) (hk : k ≤ es.length) :
    (skipN k (encodeStream es)).map peekEntry =
      (consumeN k (encodeStream es)).map peekEntry ∧
    skipN k (encodeStream es) = some (encodeStream (es.drop k)) ∧
    consumeN k (encodeStream es) = some (encodeStream (es.drop k)) := by
  have hs := skipN_encodeStream k es hv hk
  have hc := consumeN_encodeStream k es hv hk
  exact ⟨by rw [hs, hc], hs, hc⟩

/-- Claim C6 witness: skipping two records of a three-entry stream then
peeking equals consuming two then peeking. -/
theorem C6_skip_then_peek_eq_consume_then_peek_witness :
    (skipN 2 (encodeStream [⟨("a").data, some [9]⟩, ⟨("b").data, none⟩, ⟨("c").data, some []⟩])).map
        peekEntry =
      (consumeN 2 (encodeStream [⟨("a").data, some [9]⟩, ⟨("b").data, none⟩,
        ⟨("c").data, some []⟩])).map peekEntry := by
  exact (C6_skip_then_peek_eq_consume_then_peek
    [⟨("a").data, some [9]⟩, ⟨("b").data, none⟩, ⟨("c").data, some []⟩] 2
    (by
      intro e he
      simp at he
      rcases he with rfl | rfl | rfl
      · exact ⟨by norm_num, fun m hm => by cases hm; norm_num⟩
      · exact ⟨by norm_num, fun m hm => by cases hm⟩
      · exact ⟨by norm_num, fun m hm => by cases hm; norm_num⟩)
    (by norm_num)).1

/-! ## Theorems — walker claims -/

/-- Removing an empty plain directory from a directory level changes
neither the emitted entries nor the set of descended directories. -/
theorem scanChildren_empty_plain_dir (recursive : Bool) (pre : Str) (n : Str)
    (c1 c2 : List (Str × FsDir)) :
    scanChildren recursive pre (c1 ++ (n, FsDir.node none []) :: c2) =
      scanChildren recursive pre (c1 ++ c2) := by
  induction c1 with
  | nil =>
    simp [scanChildren]
  | cons hd c1' ih =>
    rcases hd with ⟨n', om, ch⟩
    rcases om with _ | meta <;>
      simp only [List.cons_append, scanChildren] <;>
      rw [ih]

/-- Claim C4: for every directory tree and walk request, an empty plain
directory (no canonical metadata file, no children) contributes no
entry to the walker's output and is never descended into, with or
without the recursive flag: the walk of a tree containing it equals —
in both the entry stream and the descend trace — the walk of the same
tree without it. -/
theorem C4_empty_plain_dir_never_emitted_nor_descended (o : WalkDirOptions)
    (om : Option (List Nat)) (n : Str) (c1 c2 : List (Str × FsDir)) :
    walk_dir o (FsDir.node om (c1 ++ (n, FsDir.node none []) :: c2)) =
      walk_dir o (FsDir.node om (c1 ++ c2)) := by
  simp only [walk_dir, FsDir.children]
  rw [scanChildren_empty_plain_dir]

/-! ## Theorems — merge engine claims -/

/-- Advancing past the head's own name consumes the head. -/
theorem advOne_cons_self (e : MetaCacheEntry) (es : List MetaCacheEntry) :
    advOne e.name (e :: es) = es := by
  simp [advOne]

/-- The least of identical names is that name. -/
theorem listMin_replicate (a : Str) (k : Nat) : listMin a (List.replicate k a) = a := by
  induction k with
  | zero => rfl
  | succ k ih =>
    rw [List.replicate_succ]
    unfold listMin
    rw [min_self]
    exact ih

/-- The maximum of n copies of m. -/
theorem foldr_max_replicate (n m : Nat) :
    (List.replicate n m).foldr max 0 = if n = 0 then 0 else m := by
  induction n with
  | zero => rfl
  | succ n ih =>
    rw [List.replicate_succ, List.foldr_cons, ih]
    rcases n with _ | n
    · simp
    · simp [Nat.max_self]

/-- N identical contributors have support count N. -/
theorem supportCount_replicate (N : Nat) (e : MetaCacheEntry) :
    supportCount (List.replicate N e) = N := by
  unfold supportCount
  rw [List.map_replicate, List.count_replicate_self, foldr_max_replicate]
  rcases N with _ | N <;> simp

/-- The dominant variant of N identical contributors is that entry. -/
theorem dominantEntry_replicate (N : Nat) (hN : 1 ≤ N) (e : MetaCacheEntry) :
    dominantEntry (List.replicate N e) = e := by
  unfold dominantEntry
  obtain ⟨N', rfl⟩ : ∃ N', N = N' + 1 := ⟨N - 1, by omega⟩
  rw [List.replicate_succ, List.find?_cons_of_pos]
  · rfl
  · have h1 : (e :: List.replicate N' e) = List.replicate (N' + 1) e :=
      (List.replicate_succ e N').symm
    simp [h1, supportCount_replicate, List.count_replicate_self]

/-- A round of N identical contributors at quorum N is agreed on that
entry. -/
theorem mergeRound_replicate (N : Nat) (hN : 1 ≤ N) (e : MetaCacheEntry) :
    mergeRound N (List.replicate N e) e.name = .agreed e := by
  unfold mergeRound
  have hf : (List.replicate N e).filter (fun x => x.name = e.name) = List.replicate N e := by
    rw [List.filter_replicate]
    simp
  rw [hf]
  simp [supportCount_replicate, dominantEntry_replicate N hN]

/-- The peeked heads of N identical streams. -/
theorem filterMap_head_replicate (N : Nat) (e : MetaCacheEntry) (es : List MetaCacheEntry) :
    (List.replicate N (e :: es)).filterMap List.head? = List.replicate N e := by
  rw [List.filterMap_replicate]
  rfl

/-- The merge loop over N identical streams agrees on every entry, in
stream order, given enough fuel. -/
theorem mergeLoopF_replicate (N : Nat) (hN : 1 ≤ N) :
    ∀ (es : List MetaCacheEntry) (fuel : Nat),
      ((List.replicate N es).map List.length).sum ≤ fuel →
      mergeLoopF fuel N (List.replicate N es) = es.map MergeEvent.agreed := by
  intro es
  induction es with
  | nil =>
    intro fuel _
    rcases fuel with _ | f
    · rfl
    · unfold mergeLoopF
      rw [List.filterMap_replicate]
      rfl
  | cons e es' ih =>
    intro fuel hfuel
    have hsum : ((List.replicate N (e :: es')).map List.length).sum = N * (es'.length + 1) := by
      rw [List.map_replicate, List.sum_replicate, smul_eq_mul, List.length_cons]
    rcases fuel with _ | f
    · exfalso
      rw [hsum] at hfuel
      have : 1 ≤ N * (es'.length + 1) := Nat.one_le_iff_ne_zero.mpr (by positivity)
      omega
    · unfold mergeLoopF
      rw [filterMap_head_replicate]
      obtain ⟨N', rfl⟩ : ∃ N', N = N' + 1 := ⟨N - 1, by omega⟩
      rw [List.replicate_succ]
      simp only [List.map_replicate, entryName]
      rw [listMin_replicate e.name N']
      have hround : mergeRound (N' + 1) (e :: List.replicate N' e) e.name =
          .agreed e := by
        have h1 : (e :: List.replicate N' e) = List.replicate (N' + 1) e :=
          (List.replicate_succ e N').symm
        rw [h1]
        exact mergeRound_replicate (N' + 1) hN e
      rw [hround]
      rw [advOne_cons_self]
      rw [List.map_cons]
      congr 1
      apply ih
      rw [hsum] at hfuel
      have h2 : ((List.replicate (N' + 1) es').map List.length).sum = (N' + 1) * es'.length := by
        rw [List.map_replicate, List.sum_replicate, smul_eq_mul]
      rw [h2]
      have h3 : (N' + 1) * (es'.length + 1) = (N' + 1) * es'.length + (N' + 1) := by
        ring
      omega

/-- A trace of agreed events has one agreed event per entry. -/
theorem countAgreed_map_agreed (es : List MetaCacheEntry) :
    countAgreed (es.map MergeEvent.agreed) = es.length := by
  unfold countAgreed
  induction es with
  | nil => rfl
  | cons e es' ih => simpa using ih

/-- A trace of agreed events has no divergent event. -/
theorem countDivergent_map_agreed (es : List MetaCacheEntry) :
    countDivergent (es.map MergeEvent.agreed) = 0 := by
  unfold countDivergent
  induction es with
  | nil => rfl
  | cons e es' ih => simp [ih]

/-- Claim C1: for every N at least 1, when N disks each carry the
identical entry stream of M objects and min_disks is N, list_path_raw
emits exactly one agreed event per entry — M agreed events in stream
order — and no partial event. -/
theorem C1_identical_disks_all_agreed (N : Nat) (hN : 1 ≤ N) (es : List MetaCacheEntry) :
    list_path_raw ⟨List.replicate N (some es), [], N⟩ =
      ⟨es.map MergeEvent.agreed, none⟩ ∧
    countAgreed (list_path_raw ⟨List.replicate N (some es), [], N⟩).events = es.length ∧
    countDivergent (list_path_raw ⟨List.replicate N (some es), [], N⟩).events = 0 := by
  have hlive : (List.replicate N (some es)).filterMap id = List.replicate N es := by
    rw [List.filterMap_replicate]
    rfl
  have hmain : list_path_raw ⟨List.replicate N (some es), [], N⟩ =
      ⟨es.map MergeEvent.agreed, none⟩ := by
    unfold list_path_raw
    simp only [hlive, List.length_replicate, List.filterMap_nil, Nat.sub_self,
      List.take_zero, List.append_nil, lt_irrefl, if_false]
    rw [mergeLoop, mergeLoopF_replicate N hN es _ (le_refl _)]
  refine ⟨hmain, ?_, ?_⟩
  · rw [hmain]
    exact countAgreed_map_agreed es
  · rw [hmain]
    exact countDivergent_map_agreed es

/-- Claim C1 witness: two disks with the same two objects at quorum 2
produce two agreed events and no partial event. -/
theorem C1_identical_disks_all_agreed_witness :
    list_path_raw ⟨List.replicate 2 (some [⟨("a").data, some [1]⟩, ⟨("b").data, some [2]⟩]),
        [], 2⟩ =
      ⟨[MergeEvent.agreed ⟨("a").data, some [1]⟩, MergeEvent.agreed ⟨("b").data, some [2]⟩],
        none⟩ := by
  have h := (C1_identical_disks_all_agreed 2 (by norm_num)
    [⟨("a").data, some [1]⟩, ⟨("b").data, some [2]⟩]).1
  simpa using h

/-- Claim C2: when the live disk count, even after exhausting the
fallback set, stays below min_disks, the listing call fails with
QuorumUnmet and emits no event at all — neither the agreed nor the
partial callback is ever invoked. -/
theorem C2_quorum_unmet_no_callbacks (o : ListPathRawOptions)
    (h : (o.disks.filterMap id).length + (o.fallback_disks.filterMap id).length < o.min_disks) :
    list_path_raw o = ⟨[], some .quorumUnmet⟩ := by
  unfold list_path_raw
  rw [if_pos]
  rw [List.length_append, List.length_take]
  omega

/-- Claim C2 witness: one live disk out of two slots with one offline
fallback at quorum 3 fails with QuorumUnmet and no events. -/
theorem C2_quorum_unmet_no_callbacks_witness :
    list_path_raw ⟨[some [⟨("a").data, some [1]⟩], none], [none], 3⟩ =
      ⟨[], some .quorumUnmet⟩ := by
  exact C2_quorum_unmet_no_callbacks ⟨[some [⟨("a").data, some [1]⟩], none], [none], 3⟩
    (by decide)

/-- The folded minimum is below its seed and every candidate. -/
theorem listMin_le : ∀ (ns : List Str) (a : Str),
    listMin a ns ≤ a ∧ ∀ x ∈ ns, listMin a ns ≤ x := by
  intro ns
  induction ns with
  | nil =>
    intro a
    exact ⟨le_refl a, by simp⟩
  | cons n ns ih =>
    intro a
    obtain ⟨h1, h2⟩ := ih (min a n)
    refine ⟨le_trans h1 (min_le_left a n), ?_⟩
    intro x hx
    rcases List.mem_cons.mp hx with rfl | hx
    · exact le_trans h1 (min_le_right a x)
    · exact h2 x hx

/-- The folded minimum is the seed or one of the candidates. -/
theorem listMin_mem : ∀ (ns : List Str) (a : Str),
    listMin a ns = a ∨ listMin a ns ∈ ns := by
  intro ns
  induction ns with
  | nil =>
    intro a
    exact Or.inl rfl
  | cons n ns ih =>
    intro a
    rcases ih (min a n) with h | h
    · rcases min_choice a n with hm | hm
      · exact Or.inl (by rw [show listMin a (n :: ns) = listMin (min a n) ns from rfl, h, hm])
      · refine Or.inr (List.mem_cons.mpr (Or.inl ?_))
        rw [show listMin a (n :: ns) = listMin (min a n) ns from rfl, h, hm]
    · exact Or.inr (List.mem_cons.mpr (Or.inr h))

/-- Advancing the empty stream. -/
theorem advOne_nil (m : Str) : advOne m [] = [] := rfl

/-- Advancing a nonempty stream consumes the head exactly when it
carries the round's name. -/
theorem advOne_cons (m : Str) (x : MetaCacheEntry) (t : List MetaCacheEntry) :
    advOne m (x :: t) = if x.name = m then t else x :: t := rfl

/-- Advancing a stream never lengthens it. -/
theorem advOne_length_le (m : Str) (s : List MetaCacheEntry) :
    (advOne m s).length ≤ s.length := by
  rcases s with _ | ⟨x, t⟩
  · simp [advOne_nil]
  · rw [advOne_cons]
    by_cases hxm : x.name = m <;> simp [hxm]

/-- Every entry of an advanced stream was in the stream. -/
theorem advOne_subset (m : Str) (s : List MetaCacheEntry) :
    ∀ e ∈ advOne m s, e ∈ s := by
  rcases s with _ | ⟨x, t⟩
  · simp [advOne_nil]
  · rw [advOne_cons]
    by_cases hxm : x.name = m
    · intro e he
      rw [if_pos hxm] at he
      exact List.mem_cons.mpr (Or.inr he)
    · intro e he
      rwa [if_neg hxm] at he

/-- Advancing a stream preserves strict name sortedness. -/
theorem advOne_sorted (m : Str) (s : List MetaCacheEntry)
    (hs : List.Pairwise (fun a b => a.name < b.name) s) :
    List.Pairwise (fun a b => a.name < b.name) (advOne m s) := by
  rcases s with _ | ⟨x, t⟩
  · rw [advOne_nil]
    exact hs
  · rw [advOne_cons]
    by_cases hxm : x.name = m
    · rw [if_pos hxm]
      exact (List.pairwise_cons.mp hs).2
    · rwa [if_neg hxm]

/-- After a round at the minimal name m, every remaining entry of a
sorted stream whose head was at or above m is strictly above m. -/
theorem advOne_entries_gt (m : Str) (s : List MetaCacheEntry)
    (hs : List.Pairwise (fun a b => a.name < b.name) s)
    (hh : ∀ x, s.head? = some x → m ≤ x.name) :
    ∀ e ∈ advOne m s, m < e.name := by
  rcases s with _ | ⟨x, t⟩
  · simp [advOne_nil]
  · have hmx : m ≤ x.name := hh x rfl
    rw [advOne_cons]
    by_cases hxm : x.name = m
    · rw [if_pos hxm]
      intro e he
      have hlt := (List.pairwise_cons.mp hs).1 e he
      rw [hxm] at hlt
      exact hlt
    · rw [if_neg hxm]
      intro e he
      rcases List.mem_cons.mp he with rfl | he2
      · exact lt_of_le_of_ne hmx (fun hEq => hxm hEq.symm)
      · have hlt := (List.pairwise_cons.mp hs).1 e he2
        calc m ≤ x.name := hmx
          _ < e.name := hlt

/-- A folded maximum is zero or attained in the list. -/
theorem foldr_max_mem : ∀ (xs : List Nat), xs.foldr max 0 = 0 ∨ xs.foldr max 0 ∈ xs := by
  intro xs
  induction xs with
  | nil => exact Or.inl rfl
  | cons x xs ih =>
    rw [List.foldr_cons]
    rcases le_or_lt x (xs.foldr max 0) with h | h
    · rw [max_eq_right h]
      rcases ih with h0 | hmem
      · exact Or.inl h0
      · exact Or.inr (List.mem_cons.mpr (Or.inr hmem))
    · rw [max_eq_left (le_of_lt h)]
      exact Or.inr (List.mem_cons.mpr (Or.inl rfl))

/-- Every element is below the folded maximum. -/
theorem le_foldr_max : ∀ (xs : List Nat) (x : Nat), x ∈ xs → x ≤ xs.foldr max 0 := by
  intro xs
  induction xs with
  | nil => simp
  | cons y xs ih =>
    intro x hx
    rw [List.foldr_cons]
    rcases List.mem_cons.mp hx with rfl | hx2
    · exact le_max_left x _
    · exact le_trans (ih x hx2) (le_max_right y _)

/-- A nonempty contributor set attains its support count. -/
theorem supportCount_attained (l : List MetaCacheEntry) (hne : l ≠ []) :
    ∃ e ∈ l, l.count e = supportCount l := by
  rcases l with _ | ⟨e0, t⟩
  · exact absurd rfl hne
  · have hmem : (e0 :: t).count e0 ∈ (e0 :: t).map (fun e => (e0 :: t).count e) :=
      List.mem_map.mpr ⟨e0, List.mem_cons.mpr (Or.inl rfl), rfl⟩
    have hpos : 0 < (e0 :: t).count e0 :=
      List.count_pos_iff.mpr (List.mem_cons.mpr (Or.inl rfl))
    rcases foldr_max_mem ((e0 :: t).map (fun e => (e0 :: t).count e)) with h0 | hatt
    · exfalso
      have hle := le_foldr_max _ _ hmem
      rw [h0] at hle
      omega
    · obtain ⟨e, hel, hcount⟩ := List.mem_map.mp hatt
      exact ⟨e, hel, hcount⟩

/-- The dominant variant of a nonempty contributor set is one of the
contributors. -/
theorem dominantEntry_mem (l : List MetaCacheEntry) (hne : l ≠ []) :
    dominantEntry l ∈ l := by
  obtain ⟨e, hel, hcount⟩ := supportCount_attained l hne
  unfold dominantEntry
  rcases hfind : l.find? (fun x => l.count x = supportCount l) with _ | y
  · exfalso
    have := List.find?_eq_none.mp hfind e hel
    simp [hcount] at this
  · simpa using List.mem_of_find?_eq_some hfind

/-- The event a round emits carries the round's name. -/
theorem mergeRound_name (k : Nat) (heads : List MetaCacheEntry) (m : Str)
    (hmem : ∃ x ∈ heads, x.name = m) :
    eventName (mergeRound k heads m) = m := by
  obtain ⟨x, hx, hxm⟩ := hmem
  have hxf : x ∈ heads.filter (fun e => e.name = m) :=
    List.mem_filter.mpr ⟨hx, by simp [hxm]⟩
  have hne : heads.filter (fun e => e.name = m) ≠ [] :=
    fun h0 => by rw [h0] at hxf; exact absurd hxf (List.not_mem_nil x)
  have hall : ∀ e ∈ heads.filter (fun e => e.name = m), e.name = m := by
    intro e he
    have := (List.mem_filter.mp he).2
    simpa using this
  unfold mergeRound
  show eventName (if k ≤ supportCount (heads.filter (fun e => e.name = m)) then
      MergeEvent.agreed (dominantEntry (heads.filter (fun e => e.name = m)))
    else MergeEvent.divergent (heads.filter (fun e => e.name = m))) = m
  split
  · exact hall _ (dominantEntry_mem _ hne)
  · rcases hfl : heads.filter (fun e => e.name = m) with _ | ⟨y, ys⟩
    · exact absurd hfl hne
    · have hy : y.name = m := hall y (by rw [hfl]; exact List.mem_cons.mpr (Or.inl rfl))
      simp [eventName, hfl, hy]

/-- When some stream's head carries the round's name, advancing all
streams strictly shrinks the total entry count. -/
theorem sum_length_advOne_lt :
    ∀ (streams : List (List MetaCacheEntry)) (m : Str),
      (∃ s ∈ streams, ∃ x, s.head? = some x ∧ x.name = m) →
      ((streams.map (advOne m)).map List.length).sum < (streams.map List.length).sum := by
  intro streams
  induction streams with
  | nil =>
    intro m h
    simp at h
  | cons s ss ih =>
    intro m h
    simp only [List.map_cons, List.sum_cons]
    rcases h with ⟨s', hs', x, hhead, hname⟩
    rcases List.mem_cons.mp hs' with rfl | hs2
    · rcases s' with _ | ⟨y, t⟩
      · simp at hhead
      · have hy : y = x := by
          simpa using hhead
        have hym : y.name = m := by
          rw [hy]
          exact hname
        rw [advOne_cons, if_pos hym]
        have hfuse : (ss.map (advOne m)).map List.length
            = ss.map (fun l => (advOne m l).length) := by
          rw [List.map_map]
          rfl
        rw [hfuse]
        have hrest : (ss.map (fun l => (advOne m l).length)).sum ≤ (ss.map List.length).sum :=
          List.sum_le_sum (fun l _ => advOne_length_le m l)
        have hlen : t.length < (y :: t).length := by
          simp
        omega
    · have hsle : (advOne m s).length ≤ s.length := advOne_length_le m s
      have hlt := ih m ⟨s', hs2, x, hhead, hname⟩
      omega

/-- A peeked head is an element of its stream. -/
theorem headMem {α : Type} {s : List α} {x : α} (h : s.head? = some x) : x ∈ s := by
  rcases s with _ | ⟨y, t⟩
  · cases h
  · have hy : y = x := by
      simpa using h
    rw [hy]
    exact List.mem_cons.mpr (Or.inl rfl)

/-- The merge loop over per-stream sorted inputs emits names in
non-decreasing global order, and never below any lower bound of all
remaining entries. -/
theorem mergeLoopF_sorted :
    ∀ (fuel k : Nat) (streams : List (List MetaCacheEntry)),
      (streams.map List.length).sum ≤ fuel →
      (∀ s ∈ streams, List.Pairwise (fun a b => a.name < b.name) s) →
      List.Sorted (fun a b => a ≤ b) ((mergeLoopF fuel k streams).map eventName) ∧
      (∀ b : Str, (∀ s ∈ streams, ∀ x ∈ s, b ≤ x.name) →
        ∀ nm ∈ (mergeLoopF fuel k streams).map eventName, b ≤ nm) := by
  intro fuel
  induction fuel with
  | zero =>
    intro k streams _ _
    constructor
    · simp [mergeLoopF, List.Sorted]
    · intro b _ nm hnm
      simp [mergeLoopF] at hnm
  | succ fuel ih =>
    intro k streams hfuel hsort
    rcases hh : streams.filterMap List.head? with _ | ⟨e, rest⟩
    · have hstep : mergeLoopF (fuel + 1) k streams = [] := by
        simp only [mergeLoopF, hh]
      constructor
      · rw [hstep]
        simp [List.Sorted]
      · intro b _ nm hnm
        rw [hstep] at hnm
        simp at hnm
    · have hmem_heads : ∀ x ∈ e :: rest, ∃ s ∈ streams, s.head? = some x := by
        intro x hx
        have : x ∈ streams.filterMap List.head? := by
          rw [hh]
          exact hx
        exact List.mem_filterMap.mp this
      have hxm : ∃ x ∈ e :: rest, x.name = listMin e.name (rest.map entryName) := by
        rcases listMin_mem (rest.map entryName) e.name with h0 | h0
        · exact ⟨e, List.mem_cons.mpr (Or.inl rfl), h0.symm⟩
        · obtain ⟨x, hx, hxn⟩ := List.mem_map.mp h0
          exact ⟨x, List.mem_cons.mpr (Or.inr hx), hxn⟩
      have hmle : ∀ x ∈ e :: rest, listMin e.name (rest.map entryName) ≤ x.name := by
        intro x hx
        rcases List.mem_cons.mp hx with rfl | hx2
        · exact (listMin_le (rest.map entryName) x.name).1
        · exact (listMin_le (rest.map entryName) e.name).2 (entryName x)
            (List.mem_map.mpr ⟨x, hx2, rfl⟩)
      have hstep : mergeLoopF (fuel + 1) k streams =
          mergeRound k (e :: rest) (listMin e.name (rest.map entryName)) ::
            mergeLoopF fuel k
              (streams.map (advOne (listMin e.name (rest.map entryName)))) := by
        simp only [mergeLoopF, hh]
      have hsort' : ∀ s' ∈ streams.map (advOne (listMin e.name (rest.map entryName))),
          List.Pairwise (fun a b => a.name < b.name) s' := by
        intro s' hs'
        obtain ⟨s, hs, rfl⟩ := List.mem_map.mp hs'
        exact advOne_sorted _ s (hsort s hs)
      have hsum' : ((streams.map (advOne (listMin e.name (rest.map entryName)))).map
          List.length).sum ≤ fuel := by
        obtain ⟨x, hx, hxn⟩ := hxm
        obtain ⟨s, hs, hhead⟩ := hmem_heads x hx
        have hlt := sum_length_advOne_lt streams (listMin e.name (rest.map entryName))
          ⟨s, hs, x, hhead, hxn⟩
        omega
      obtain ⟨hSorted', hBound'⟩ := ih k _ hsum' hsort'
      have hgt : ∀ s' ∈ streams.map (advOne (listMin e.name (rest.map entryName))),
          ∀ x ∈ s', listMin e.name (rest.map entryName) ≤ x.name := by
        intro s' hs' x hx
        obtain ⟨s, hs, rfl⟩ := List.mem_map.mp hs'
        refine le_of_lt (advOne_entries_gt _ s (hsort s hs) ?_ x hx)
        intro y hy
        refine hmle y ?_
        rw [← hh]
        exact List.mem_filterMap.mpr ⟨s, hs, hy⟩
      have hevname : eventName (mergeRound k (e :: rest)
          (listMin e.name (rest.map entryName))) = listMin e.name (rest.map entryName) :=
        mergeRound_name k (e :: rest) _ hxm
      constructor
      · rw [hstep, List.map_cons, hevname, List.sorted_cons]
        exact ⟨fun nm hnm => hBound' _ hgt nm hnm, hSorted'⟩
      · intro b hb nm hnm
        rw [hstep, List.map_cons, hevname] at hnm
        rcases List.mem_cons.mp hnm with rfl | hnm2
        · obtain ⟨x, hx, hxn⟩ := hxm
          obtain ⟨s, hs, hhead⟩ := hmem_heads x hx
          have hxs : x ∈ s := headMem hhead
          rw [← hxn]
          exact hb s hs x hxs
        · refine hBound' b ?_ nm hnm2
          intro s' hs' x hx
          obtain ⟨s, hs, rfl⟩ := List.mem_map.mp hs'
          exact hb s hs x (advOne_subset _ s x hx)

/-- Claim C3: in every listing call whose per-disk streams are strictly
name-sorted (the walker invariant), the names delivered through the
agreed and partial callbacks, taken together in invocation order, are
non-decreasing in lexicographic byte order. -/
theorem C3_emitted_names_globally_ascending (o : ListPathRawOptions)
    (hs : ∀ s ∈ o.disks.filterMap id ++ o.fallback_disks.filterMap id,
      List.Pairwise (fun a b => a.name < b.name) s) :
    List.Sorted (fun a b => a ≤ b) ((list_path_raw o).events.map eventName) := by
  simp only [list_path_raw]
  split
  · simp [List.Sorted]
  · show List.Sorted (fun a b => a ≤ b) ((mergeLoop o.min_disks _).map eventName)
    rw [mergeLoop]
    refine (mergeLoopF_sorted _ o.min_disks _ (le_refl _) ?_).1
    intro s hs2
    apply hs
    rcases List.mem_append.mp hs2 with h | h
    · exact List.mem_append.mpr (Or.inl h)
    · exact List.mem_append.mpr (Or.inr (List.take_subset _ _ h))

/-- Claim C3 witness: the two-disk scenario with streams a,b,c and
a,b,d at quorum 2 emits its events in ascending name order. -/
theorem C3_emitted_names_globally_ascending_witness :
    List.Sorted (fun a b => a ≤ b)
      ((list_path_raw ⟨[some [⟨("a").data, some [1]⟩, ⟨("b").data, some [2]⟩,
          ⟨("c").data, some [3]⟩],
        some [⟨("a").data, some [1]⟩, ⟨("b").data, some [2]⟩, ⟨("d").data, some [4]⟩]],
        [], 2⟩).events.map eventName) := by
  exact C3_emitted_names_globally_ascending _ (by decide)
